import Mathlib

/-!
# Verification of the KGE-Literals training and evaluation utilities

Shallow embedding of the negative-sampling, minibatching and ranking-evaluation
code of `kga/util.py`, `kga/metrics.py` and `kga/models.py`, together with
theorems settling the stated properties of those functions.

A batch row is modelled as a list of natural numbers `[s, r, o]` (numpy int
matrices of shape M x 3 become lists of such rows).  Random draws made through
`np.random` are passed in explicitly as oracle parameters, constrained by the
exact postcondition the corresponding numpy call guarantees (for example
`np.random.randint(n)` yields a value `< n`, and a rejection loop
`while hc == h: hc = np.random.randint(n)` additionally yields `hc ≠ h`).
Real-valued model scores are modelled as rationals except where the source
forces real analysis (`torch.norm`, `log`, `exp`), which is modelled over `ℝ`.
-/

namespace KGA

/-- A row of a numpy integer matrix; triplet rows are `[s, r, o]`. -/
abbrev Row := List Nat

/-! ## kga/util.py : negative samplers -/

/-- Embedding of `sample_negatives(X, n_e)` (util.py lines 31-39).
`corr` is the oracle for `np.random.randint(n_e, size=M)` and `e_idxs` the
oracle for `np.random.choice([0, 2], size=M)`.  The numpy fancy assignment
`X_corr[np.arange(M), e_idxs] = corr` writes `corr[i]` at column `e_idxs[i]`
of row `i` of the copy. -/
def sample_negatives (X : List Row) (corr : List Nat) (e_idxs : List Nat) : List Row :=
  (X.zip (corr.zip e_idxs)).map (fun p => p.1.set p.2.2 p.2.1)

/-- Embedding of `sample_negatives2(X, n_e)` (util.py lines 65-82).
`draws` gives, per input row, the pair `(hc, tc)` produced by the two
rejection-sampling loops; the loops guarantee `hc < n_e`, `hc ≠ h`,
`tc < n_e`, `tc ≠ t`, which theorems take as hypotheses.  Each source row
`[h, r, t]` contributes the two rows `[hc, r, t]` and `[h, r, tc]`, in order. -/
def sample_negatives2 (X : List Row) (draws : List (Nat × Nat)) : List Row :=
  (X.zip draws).flatMap (fun p =>
    [[p.2.1, p.1.getD 1 0, p.1.getD 2 0], [p.1.getD 0 0, p.1.getD 1 0, p.2.2]])

/-- Embedding of `sample_negatives_decoupled(X, n_s, n_o)` (util.py lines
110-127).  `idxs` is the oracle for `np.random.choice([0, 2], size=M)`;
`corr_s` (resp. `corr_o`) is the oracle for the `np.random.randint` draws for
the masked subject (resp. object) rows, consumed in row order exactly as the
numpy mask assignments `X_corr[mask_s, 0] = corr_s` and
`X_corr[mask_o, 2] = corr_o` do. -/
def sample_negatives_decoupled : List Row → List Nat → List Nat → List Nat → List Row
  | [], _, _, _ => []
  | _, [], _, _ => []
  | x :: xs, i :: is_, cs, co =>
      if i = 0 then
        x.set 0 (cs.getD 0 0) :: sample_negatives_decoupled xs is_ (cs.drop 1) co
      else
        x.set 2 (co.getD 0 0) :: sample_negatives_decoupled xs is_ cs (co.drop 1)

/-- Embedding of `sample_negatives_rel(X, n_r)` (util.py lines 130-142).
`draws` gives the rejection-sampled relation `rc` per row (`rc < n_r`,
`rc ≠ r`). -/
def sample_negatives_rel (X : List Row) (draws : List Nat) : List Row :=
  (X.zip draws).map (fun p => [p.1.getD 0 0, p.2, p.1.getD 2 0])

/-! ## A store model for the aliasing behaviour of the samplers

The numpy arrays live in a store of matrices addressed by pointers; `np.copy`
and `np.array` allocate a fresh cell, in-place fancy assignment overwrites an
existing cell.  This makes the frame property (the input batch is never
mutated, the result is a fresh array) expressible. -/

/-- A heap of allocated integer matrices; pointers are list indices. -/
abbrev Store := List (List Row)

/-- Allocate a fresh array holding `m`; returns the new store and the pointer. -/
def allocArray (s : Store) (m : List Row) : Store × Nat :=
  (s ++ [m], s.length)

/-- Read the matrix a pointer refers to. -/
def readArray (s : Store) (p : Nat) : List Row :=
  s.getD p []

/-- Overwrite the matrix a pointer refers to (in-place numpy assignment). -/
def writeArray (s : Store) (p : Nat) (m : List Row) : Store :=
  s.set p m

/-- Store-level run of `sample_negatives`: read `X`, allocate the copy
`X_corr = np.copy(X)`, then the fancy assignment writes through the copy's
pointer only. -/
def sample_negatives_prog (s : Store) (pX : Nat) (corr e_idxs : List Nat) : Store × Nat :=
  let X := readArray s pX
  let (s1, pC) := allocArray s X
  (writeArray s1 pC (sample_negatives X corr e_idxs), pC)

/-- Store-level run of `sample_negatives2`: the rows are accumulated in a
python list and `np.array` allocates a fresh array from it; no write ever
targets the input pointer. -/
def sample_negatives2_prog (s : Store) (pX : Nat) (draws : List (Nat × Nat)) : Store × Nat :=
  let X := readArray s pX
  allocArray s (sample_negatives2 X draws)

/-- Store-level run of `sample_negatives_decoupled`: copy then two masked
writes through the copy's pointer. -/
def sample_negatives_decoupled_prog (s : Store) (pX : Nat)
    (idxs corr_s corr_o : List Nat) : Store × Nat :=
  let X := readArray s pX
  let (s1, pC) := allocArray s X
  (writeArray s1 pC (sample_negatives_decoupled X idxs corr_s corr_o), pC)

/-- Store-level run of `sample_negatives_rel`: a fresh `np.array` from a
python list. -/
def sample_negatives_rel_prog (s : Store) (pX : Nat) (draws : List Nat) : Store × Nat :=
  let X := readArray s pX
  allocArray s (sample_negatives_rel X draws)

/-! ## kga/util.py : minibatching -/

/-- Chunking loop of `get_minibatches` (util.py lines 285-286) with positive
step `b + 1`: `for i in range(0, len(X), mb_size): yield X[i:i+mb_size]`. -/
def chunkAux (b : Nat) : List α → List (List α)
  | [] => []
  | x :: xs => (x :: xs).take (b + 1) :: chunkAux b ((x :: xs).drop (b + 1))
  termination_by l => l.length
  decreasing_by simp [List.length_drop]; omega

/-- Embedding of `get_minibatches(X, mb_size, shuffle)` (util.py lines
254-286) on the `shuffle=False` path (on that path `X_shuff = np.copy(X)` has
the value of `X`).  A step of `0` makes python's `range` raise `ValueError`,
modelled by `none`. -/
def get_minibatches (X : List α) (mb_size : Nat) : Option (List (List α)) :=
  match mb_size with
  | 0 => none
  | b + 1 => some (chunkAux b X)

/-- Possible outcomes of `np.random.choice(np.arange(n), size=size,
replace=False)`: a duplicate-free list of the requested length with entries
below `n`.  The call raises when and only when no such list exists. -/
def validDraw (n size : Nat) (l : List Nat) : Prop :=
  l.length = size ∧ l.Nodup ∧ ∀ e ∈ l, e < n

/-- Embedding of `get_random_minibatch(X, mb_size)` (util.py lines 307-308):
`return X[idxs, :]` for the drawn index list `idxs`. -/
def get_random_minibatch (X : List Row) (idxs : List Nat) : List Row :=
  idxs.map (fun i => X.getD i [])

/-! ## kga/metrics.py : ranking evaluation -/

/-- Value of `scipy.stats.rankdata(s)[j]`.  `rankdata`'s default method is
`average`: entries are ranked ascending from 1 and a group of tied entries
all receive the mean of the positions the group occupies, so the rank of the
entry at `j` is `(number of entries strictly below it) + (1 + number of
entries equal to it) / 2` (the entry itself included in the equal count). -/
def rankdataAt (s : List ℚ) (j : Nat) : ℚ :=
  (s.countP (fun a => decide (a < s.getD j 0)) : ℚ) +
    ((s.countP (fun a => decide (a = s.getD j 0)) : ℚ) + 1) / 2

/-- `np.mean` of a list of rationals. -/
def npMean (l : List ℚ) : ℚ :=
  l.sum / l.length

/-- The head-corruption write `X_corr_h[:, 0] = e` on one row. -/
def corruptH (x : Row) (e : Nat) : Row := x.set 0 e

/-- The tail-corruption write `X_corr_t[:, 2] = e` on one row. -/
def corruptT (x : Row) (e : Nat) : Row := x.set 2 e

/-- The relation-corruption write `X_corr_r[:, 1] = r` on one row. -/
def corruptR (x : Row) (r : Nat) : Row := x.set 1 r

/-- Row of the score matrix `scores_h` of `eval_embeddings` (metrics.py lines
88-124, `X_lit=None` path): column 0 holds `model.predict(X_test)` for the
row, column `i+1` holds the score of the head-corrupted row for the i-th
pool entity.  `score` is the per-row scoring capability of the model. -/
def scoresRowH (score : Row → ℚ) (x : Row) (ents : List Nat) : List ℚ :=
  score x :: ents.map (fun e => score (corruptH x e))

/-- Row of the score matrix `scores_t`, symmetric to `scoresRowH`. -/
def scoresRowT (score : Row → ℚ) (x : Row) (ents : List Nat) : List ℚ :=
  score x :: ents.map (fun e => score (corruptT x e))

/-- `ranks_h = np.array([st.rankdata(s)[0] for s in scores_h])`
(metrics.py line 126). -/
def ranksH (score : Row → ℚ) (X : List Row) (ents : List Nat) : List ℚ :=
  X.map (fun x => rankdataAt (scoresRowH score x ents) 0)

/-- `ranks_t = np.array([st.rankdata(s)[0] for s in scores_t])`
(metrics.py line 127). -/
def ranksT (score : Row → ℚ) (X : List Row) (ents : List Nat) : List ℚ :=
  X.map (fun x => rankdataAt (scoresRowT score x ents) 0)

/-- Embedding of `eval_embeddings(model, X_test, n_e, k, n_sample)`
(metrics.py lines 86-132, `X_lit=None` path), parametrised by the candidate
entity pool `ents` (drawn once per call; see `entsPool`).  Returns
`(mrr, hitsk)` exactly as lines 129-131 compute them. -/
def eval_embeddings (score : Row → ℚ) (X : List Row) (ents : List Nat) (k : Nat) : ℚ × ℚ :=
  let rh := ranksH score X ents
  let rt := ranksT score X ents
  ((npMean (rh.map (fun r => 1 / r)) + npMean (rt.map (fun r => 1 / r))) / 2,
   (npMean (rh.map (fun r => if r ≤ (k : ℚ) then 1 else 0)) +
      npMean (rt.map (fun r => if r ≤ (k : ℚ) then 1 else 0))) / 2)

/-- Candidate-pool selection of `eval_embeddings` (metrics.py lines 102-106):
`ents = np.random.choice(np.arange(n_e), size=n_sample, replace=False)` when
`n_sample is not None` (the draw is the oracle argument, constrained by
`validDraw n_e n_sample`), and `ents = np.arange(n_e)` when it is `None`. -/
def entsPool (n_e : Nat) (n_sample : Option Nat) (draw : List Nat) : List Nat :=
  match n_sample with
  | some _ => draw
  | none => List.range n_e

/-- Column count `N = n_sample + 1 if n_sample is not None else n_e + 1` of
the score matrices (metrics.py line 86). -/
def numCols (n_e : Nat) (n_sample : Option Nat) : Nat :=
  match n_sample with
  | some s => s + 1
  | none => n_e + 1

/-! ## kga/metrics.py : relation ranking -/

/-- Row of the score matrix `scores_r` of `eval_embeddings_rel` (metrics.py
lines 172-190) after all writes, built exactly in program order: the row
starts as `np.zeros(n_r)`, column 0 receives the score `y` of the unmodified
test row (line 180), then the candidate loop over `r in [0..4]` overwrites
column `i` with the score of the relation-`r`-corrupted row (line 190). -/
def scoresRowRel (score : Row → ℚ) (n_r : Nat) (x : Row) : List ℚ :=
  (List.range 5).foldl (fun s i => s.set i (score (corruptR x i)))
    ((List.replicate n_r (0 : ℚ)).set 0 (score x))

/-- `ranks_r = np.array([st.rankdata(s)[r] for s, r in zip(scores_r,
X_test[:, 1])])` (metrics.py lines 192-194): each row's rank is read at the
column indexed by the row's true relation. -/
def ranksRel (score : Row → ℚ) (n_r : Nat) (X : List Row) : List ℚ :=
  X.map (fun x => rankdataAt (scoresRowRel score n_r x) (x.getD 1 0))

/-- Embedding of `eval_embeddings_rel(model, X_test, n_r, k)` (metrics.py
lines 169-199), literal-free path. -/
def eval_embeddings_rel (score : Row → ℚ) (n_r : Nat) (X : List Row) (k : Nat) : ℚ × ℚ :=
  let rr := ranksRel score n_r X
  (npMean (rr.map (fun r => 1 / r)),
   npMean (rr.map (fun r => if r ≤ (k : ℚ) then 1 else 0)))

/-! ## kga/models.py : Model.log_loss

The tensor arithmetic of `log_loss` is modelled over `ℝ`.  The repository
targets the old torch API (`Variable`, `size_average`, `loss.data[0]`), under
which `torch.sum` over a whole tensor yields a one-element tensor, so
`nlp1.size(0) = 1` on lines 103-104. -/

/-- Pointwise `F.binary_cross_entropy_with_logits` term:
`-(y * log σ(x) + (1 - y) * log (1 - σ(x))) = log (1 + exp x) - y * x`. -/
noncomputable def bceTerm (x y : ℝ) : ℝ :=
  Real.log (1 + Real.exp x) - y * x

/-- `F.binary_cross_entropy_with_logits(y_pred, y_true, size_average)`:
the mean (when averaging) or sum of the pointwise terms. -/
noncomputable def binary_cross_entropy_with_logits (y_pred y_true : List ℝ)
    (average : Bool) : ℝ :=
  if average then ((y_pred.zip y_true).map (fun p => bceTerm p.1 p.2)).sum / y_pred.length
  else ((y_pred.zip y_true).map (fun p => bceTerm p.1 p.2)).sum

/-- Row norm computed by `torch.norm(w, 2, 1)`: the Euclidean norm of a row. -/
noncomputable def rowNorm (v : List ℝ) : ℝ :=
  Real.sqrt ((v.map (fun a => a ^ 2)).sum)

/-- `torch.sum(torch.clamp(norm - 1, min=0))` over a weight table
(models.py lines 95-100): total overshoot of the per-row norms past one. -/
noncomputable def normPenaltySum (W : List (List ℝ)) : ℝ :=
  (W.map (fun row => max (rowNorm row - 1) 0)).sum

/-- Embedding of `Model.log_loss(y_pred, y_true, average)` (models.py lines
69-106).  `emb_E` and `emb_R` are the rows of `self.emb_E.weight` and
`self.emb_R.weight`, `lam` is `self.lam`.  On lines 103-104 the code divides
the summed penalty `nlp1` by `nlp1.size(0)`; `nlp1` is the one-element result
of `torch.sum`, so the division is by one. -/
noncomputable def log_loss (y_pred y_true : List ℝ) (emb_E emb_R : List (List ℝ))
    (lam : ℝ) (average : Bool) : ℝ :=
  let nll := binary_cross_entropy_with_logits y_pred y_true average
  let nlp1 := if average then normPenaltySum emb_E / 1 else normPenaltySum emb_E
  let nlp2 := if average then normPenaltySum emb_R / 1 else normPenaltySum emb_R
  nll + lam * nlp1 + lam * nlp2

/-- The loss described by the specification: binary cross-entropy plus, per
embedding table, `lam * mean(relu(||row||_2 - 1))` with the mean taken over
the rows of that table. -/
noncomputable def log_loss_specified (y_pred y_true : List ℝ) (emb_E emb_R : List (List ℝ))
    (lam : ℝ) (average : Bool) : ℝ :=
  binary_cross_entropy_with_logits y_pred y_true average +
    lam * (normPenaltySum emb_E / emb_E.length) +
    lam * (normPenaltySum emb_R / emb_R.length)

/-! ## Helper lemmas -/

theorem ceil_div_succ (L b : Nat) (h : 1 ≤ L) :
    (L + b) / (b + 1) = (L - (b + 1) + b) / (b + 1) + 1 := by
  rcases Nat.le_total L (b + 1) with hle | hgt
  · have h1 : L - (b + 1) = 0 := by omega
    have h2 : (0 + b) / (b + 1) = 0 := Nat.div_eq_of_lt (by omega)
    rw [h1, h2]
    exact Nat.div_eq_of_lt_le (by omega) (by omega)
  · have h3 : L + b = (L - (b + 1) + b) + (b + 1) := by omega
    rw [h3, Nat.add_div_right _ (by omega)]

theorem chunkAux_flatten (b : Nat) (l : List α) : (chunkAux b l).flatten = l := by
  generalize hl : l.length = n
  induction n using Nat.strong_induction_on generalizing l with
  | _ n ih =>
    cases l with
    | nil => simp [chunkAux]
    | cons x xs =>
      simp only [List.length_cons] at hl
      subst hl
      rw [chunkAux, List.flatten_cons,
        ih (((x :: xs).drop (b + 1)).length)
          (by simp only [List.length_drop, List.length_cons]; omega) _ rfl,
        List.take_append_drop]

theorem chunkAux_length (b : Nat) (l : List α) :
    (chunkAux b l).length = (l.length + b) / (b + 1) := by
  generalize hl : l.length = n
  induction n using Nat.strong_induction_on generalizing l with
  | _ n ih =>
    cases l with
    | nil =>
      simp only [List.length_nil] at hl
      subst hl
      rw [chunkAux]
      simp only [List.length_nil, List.length]
      exact (Nat.div_eq_of_lt (by omega)).symm
    | cons x xs =>
      simp only [List.length_cons] at hl
      subst hl
      rw [chunkAux, List.length_cons,
        ih (((x :: xs).drop (b + 1)).length)
          (by simp only [List.length_drop, List.length_cons]; omega) _ rfl]
      simp only [List.length_drop, List.length_cons]
      rw [ceil_div_succ (xs.length + 1) b (by omega)]

theorem chunkAux_mem (b : Nat) (l : List α) :
    ∀ c ∈ chunkAux b l, c.length ≤ b + 1 ∧ c ≠ [] := by
  generalize hl : l.length = n
  induction n using Nat.strong_induction_on generalizing l with
  | _ n ih =>
    cases l with
    | nil => simp [chunkAux]
    | cons x xs =>
      simp only [List.length_cons] at hl
      subst hl
      rw [chunkAux]
      intro c hc
      rw [List.mem_cons] at hc
      rcases hc with rfl | hc
      · constructor
        · exact List.length_take_le (b + 1) (x :: xs)
        · simp
      · exact ih (((x :: xs).drop (b + 1)).length)
          (by simp only [List.length_drop, List.length_cons]; omega) _ rfl c hc

theorem chunkAux_eq_nil_iff (b : Nat) (l : List α) : chunkAux b l = [] ↔ l = [] := by
  cases l <;> simp [chunkAux]

theorem chunkAux_dropLast (b : Nat) (l : List α) :
    ∀ c ∈ (chunkAux b l).dropLast, c.length = b + 1 := by
  generalize hl : l.length = n
  induction n using Nat.strong_induction_on generalizing l with
  | _ n ih =>
    cases l with
    | nil => simp [chunkAux]
    | cons x xs =>
      simp only [List.length_cons] at hl
      subst hl
      rw [chunkAux]
      by_cases hrest : (x :: xs).drop (b + 1) = []
      · rw [hrest]
        simp [chunkAux]
      · rw [List.dropLast_cons_of_ne_nil (by
          simpa [chunkAux_eq_nil_iff] using hrest)]
        intro c hc
        rw [List.mem_cons] at hc
        rcases hc with rfl | hc
        · have hlong : b + 1 < (x :: xs).length := by
            rcases Nat.lt_or_ge (b + 1) (x :: xs).length with h | h
            · exact h
            · exact absurd (List.drop_eq_nil_of_le h) hrest
          simp only [List.length_take, List.length_cons] at hlong ⊢
          omega
        · exact ih (((x :: xs).drop (b + 1)).length)
            (by simp only [List.length_drop, List.length_cons]; omega) _ rfl c hc

theorem npMean_map_const {β : Type} (l : List β) (c : ℚ) (h : l ≠ []) :
    npMean (l.map (fun _ => c)) = c := by
  have : (l.map (fun _ => c)) = List.replicate l.length c := List.map_const l c
  rw [npMean, this, List.sum_replicate, List.length_replicate, nsmul_eq_mul,
    mul_div_cancel_left₀]
  exact Nat.cast_ne_zero.mpr (List.length_pos.mpr h).ne'

theorem rankdataAt_cons_of_forall_lt (v : ℚ) (l : List ℚ) (h : ∀ a ∈ l, v < a) :
    rankdataAt (v :: l) 0 = 1 := by
  rw [rankdataAt]
  have hd : (v :: l).getD 0 0 = v := List.getD_cons_zero
  rw [hd]
  have h1 : (v :: l).countP (fun a => decide (a < v)) = 0 := by
    rw [List.countP_eq_zero]
    intro a ha
    rw [List.mem_cons] at ha
    rcases ha with rfl | ha
    · simp
    · simpa using not_lt_of_lt (h a ha)
  have h2 : (v :: l).countP (fun a => decide (a = v)) = 1 := by
    rw [List.countP_cons]
    have : l.countP (fun a => decide (a = v)) = 0 := by
      rw [List.countP_eq_zero]
      intro a ha
      simpa using ne_of_gt (h a ha)
    simp [this]
  rw [h1, h2]
  norm_num

theorem rankdataAt_cons_of_forall_gt (v : ℚ) (l : List ℚ) (h : ∀ a ∈ l, a < v) :
    rankdataAt (v :: l) 0 = (l.length : ℚ) + 1 := by
  rw [rankdataAt]
  have hd : (v :: l).getD 0 0 = v := List.getD_cons_zero
  rw [hd]
  have h1 : (v :: l).countP (fun a => decide (a < v)) = l.length := by
    rw [List.countP_cons]
    have : l.countP (fun a => decide (a < v)) = l.length := by
      rw [List.countP_eq_length]
      intro a ha
      simpa using h a ha
    simp [this]
  have h2 : (v :: l).countP (fun a => decide (a = v)) = 1 := by
    rw [List.countP_cons]
    have : l.countP (fun a => decide (a = v)) = 0 := by
      rw [List.countP_eq_zero]
      intro a ha
      simpa using ne_of_lt (h a ha)
    simp [this]
  rw [h1, h2]
  norm_num

theorem rankdataAt_cons_of_forall_eq (v : ℚ) (l : List ℚ) (h : ∀ a ∈ l, a = v) :
    rankdataAt (v :: l) 0 = ((l.length : ℚ) + 2) / 2 := by
  rw [rankdataAt]
  have hd : (v :: l).getD 0 0 = v := List.getD_cons_zero
  rw [hd]
  have h1 : (v :: l).countP (fun a => decide (a < v)) = 0 := by
    rw [List.countP_eq_zero]
    intro a ha
    rw [List.mem_cons] at ha
    rcases ha with rfl | ha
    · simp
    · simp [h a ha]
  have h2 : (v :: l).countP (fun a => decide (a = v)) = l.length + 1 := by
    have : (v :: l).countP (fun a => decide (a = v)) = (v :: l).length := by
      rw [List.countP_eq_length]
      intro a ha
      rw [List.mem_cons] at ha
      rcases ha with rfl | ha
      · simp
      · simp [h a ha]
    simpa using this
  rw [h1, h2]
  push_cast
  ring

theorem validDraw_full_mem (n_e : Nat) (ents : List Nat)
    (h : validDraw n_e n_e ents) : ∀ e, e < n_e → e ∈ ents := by
  obtain ⟨hlen, hnd, hlt⟩ := h
  have hsub : ents.toFinset ⊆ Finset.range n_e := by
    intro e he
    exact Finset.mem_range.mpr (hlt e (List.mem_toFinset.mp he))
  have hcard : (Finset.range n_e).card ≤ ents.toFinset.card := by
    rw [Finset.card_range, List.toFinset_card_of_nodup hnd, hlen]
  have heq := Finset.eq_of_subset_of_card_le hsub hcard
  intro e he
  have : e ∈ ents.toFinset := by
    rw [heq]
    exact Finset.mem_range.mpr he
  exact List.mem_toFinset.mp this

theorem validDraw_not_exists (n_e size : Nat) (h : n_e < size) :
    ¬ ∃ l, validDraw n_e size l := by
  rintro ⟨l, hlen, hnd, hlt⟩
  have hsub : l.toFinset ⊆ Finset.range n_e := by
    intro e he
    exact Finset.mem_range.mpr (hlt e (List.mem_toFinset.mp he))
  have := Finset.card_le_card hsub
  rw [Finset.card_range, List.toFinset_card_of_nodup hnd, hlen] at this
  omega

theorem validDraw_exists (n_e size : Nat) (h : size ≤ n_e) :
    ∃ l, validDraw n_e size l := by
  refine ⟨List.range size, List.length_range size, List.nodup_range size, ?_⟩
  intro e he
  exact lt_of_lt_of_le (List.mem_range.mp he) h

theorem getD_mem_of_lt (l : List α) (i : Nat) (d : α) (h : i < l.length) :
    l.getD i d ∈ l := by
  rw [List.getD_eq_getElem l d h]
  exact List.getElem_mem h

theorem sample_negatives_getElem (X : List Row) (corr e_idxs : List Nat) (i : Nat)
    (h1 : corr.length = X.length) (h2 : e_idxs.length = X.length) (hi : i < X.length) :
    (sample_negatives X corr e_idxs)[i]? =
      some ((X.getD i []).set (e_idxs.getD i 0) (corr.getD i 0)) := by
  induction X generalizing corr e_idxs i with
  | nil => simp at hi
  | cons x xs ih =>
    cases corr with
    | nil => simp at h1
    | cons c cs =>
      cases e_idxs with
      | nil => simp at h2
      | cons j js =>
        cases i with
        | zero => simp [sample_negatives]
        | succ m =>
          simp only [sample_negatives, List.zip_cons_cons, List.map_cons,
            List.getElem?_cons_succ, List.getD_cons_succ]
          exact ih cs js m (by simpa using h1) (by simpa using h2) (by simpa using hi)

/-! ## Claims -/

/-- Claim C6: for every input batch `X` and vocabulary size `n`,
`sample_negatives(X, n)` returns a batch of the same length in which each
output row differs from its source row in at most one slot, that slot is the
subject slot or the object slot (never the relation slot), the new value of
that slot lies in `[0, n)`, and every other slot is unchanged. -/
theorem sample_negatives_corrupts_one_entity_slot (X : List Row) (corr e_idxs : List Nat)
    (n : Nat) (h1 : corr.length = X.length) (h2 : e_idxs.length = X.length)
    (hc : ∀ c ∈ corr, c < n) (he : ∀ j ∈ e_idxs, j = 0 ∨ j = 2) :
    (sample_negatives X corr e_idxs).length = X.length ∧
    ∀ i, i < X.length → ∃ y, (sample_negatives X corr e_idxs)[i]? = some y ∧
      y.length = (X.getD i []).length ∧
      y[1]? = (X.getD i [])[1]? ∧
      ∃ j, (j = 0 ∨ j = 2) ∧
        (∀ j2, j2 ≠ j → y[j2]? = (X.getD i [])[j2]?) ∧
        (∀ v, y[j]? = some v → v < n) := by
  constructor
  · simp [sample_negatives, List.length_zip, h1, h2]
  · intro i hi
    refine ⟨_, sample_negatives_getElem X corr e_idxs i h1 h2 hi, ?_, ?_, ?_⟩
    · exact List.length_set _ _ _
    · refine List.getElem?_set_ne ?_
      rcases he (e_idxs.getD i 0) (getD_mem_of_lt _ _ _ (by omega)) with hj | hj <;> omega
    · refine ⟨e_idxs.getD i 0, he _ (getD_mem_of_lt _ _ _ (by omega)), ?_, ?_⟩
      · intro j2 hj2
        exact List.getElem?_set_ne (Ne.symm hj2)
      · intro v hv
        rw [List.getElem?_set, if_pos rfl] at hv
        by_cases hlen : e_idxs.getD i 0 < (X.getD i []).length
        · rw [if_pos hlen] at hv
          obtain rfl : corr.getD i 0 = v := by simpa using hv
          exact hc _ (getD_mem_of_lt _ _ _ (by omega))
        · rw [if_neg hlen] at hv
          simp at hv

/-- Witness for Claim C6 at a concrete batch, pool size 5. -/
theorem sample_negatives_corrupts_one_entity_slot_witness :
    ((sample_negatives [[0, 1, 2], [3, 4, 0]] [4, 2] [0, 2]).length = 2) ∧
      (∀ c ∈ ([4, 2] : List Nat), c < 5) := by
  refine ⟨?_, by decide⟩
  exact (sample_negatives_corrupts_one_entity_slot [[0, 1, 2], [3, 4, 0]] [4, 2] [0, 2] 5
    rfl rfl (by decide) (by decide)).1

/-- Claim C7: for every dataset `X` and batch size `b > 0`,
`get_minibatches(X, b, shuffle=False)` succeeds and yields exactly
`ceil(len(X) / b)` batches whose concatenation equals `X` in order; every
batch is non-empty of size at most `b`, and every batch except possibly the
last has size exactly `b`. -/
theorem get_minibatches_partitions (X : List α) (b : Nat) (hb : 0 < b) :
    ∃ chunks, get_minibatches X b = some chunks ∧
      chunks.flatten = X ∧
      chunks.length = (X.length + b - 1) / b ∧
      (∀ c ∈ chunks, c.length ≤ b ∧ c ≠ []) ∧
      (∀ c ∈ chunks.dropLast, c.length = b) := by
  obtain ⟨b2, rfl⟩ : ∃ b2, b = b2 + 1 := ⟨b - 1, by omega⟩
  refine ⟨chunkAux b2 X, rfl, chunkAux_flatten b2 X, ?_, chunkAux_mem b2 X,
    chunkAux_dropLast b2 X⟩
  rw [chunkAux_length]
  have h4 : X.length + (b2 + 1) - 1 = X.length + b2 := by omega
  rw [h4]

/-- Witness for Claim C7: a seven-row dataset in batches of three. -/
theorem get_minibatches_partitions_witness :
    0 < 3 ∧ ∃ chunks, get_minibatches [0, 1, 2, 3, 4, 5, 6] 3 = some chunks ∧
      chunks.flatten = [0, 1, 2, 3, 4, 5, 6] ∧
      chunks.length = ([0, 1, 2, 3, 4, 5, 6].length + 3 - 1) / 3 ∧
      (∀ c ∈ chunks, c.length ≤ 3 ∧ c ≠ []) ∧
      (∀ c ∈ chunks.dropLast, c.length = 3) :=
  ⟨by decide, get_minibatches_partitions [0, 1, 2, 3, 4, 5, 6] 3 (by decide)⟩

theorem sample_negatives2_cons (x : Row) (xs : List Row) (d : Nat × Nat)
    (ds : List (Nat × Nat)) :
    sample_negatives2 (x :: xs) (d :: ds) =
      [d.1, x.getD 1 0, x.getD 2 0] :: [x.getD 0 0, x.getD 1 0, d.2] ::
        sample_negatives2 xs ds := by
  simp [sample_negatives2]

theorem sample_negatives2_length (X : List Row) (draws : List (Nat × Nat))
    (hlen : draws.length = X.length) :
    (sample_negatives2 X draws).length = 2 * X.length := by
  induction X generalizing draws with
  | nil => simp [sample_negatives2]
  | cons x xs ih =>
    cases draws with
    | nil => simp at hlen
    | cons d ds =>
      rw [sample_negatives2_cons]
      simp only [List.length_cons, ih ds (by simpa using hlen)]
      ring

theorem sample_negatives2_getElem (X : List Row) (draws : List (Nat × Nat)) (i : Nat)
    (hlen : draws.length = X.length) (hi : i < X.length) :
    (sample_negatives2 X draws)[2 * i]? =
      some [(draws.getD i (0, 0)).1, (X.getD i []).getD 1 0, (X.getD i []).getD 2 0] ∧
    (sample_negatives2 X draws)[2 * i + 1]? =
      some [(X.getD i []).getD 0 0, (X.getD i []).getD 1 0, (draws.getD i (0, 0)).2] := by
  induction X generalizing draws i with
  | nil => simp at hi
  | cons x xs ih =>
    cases draws with
    | nil => simp at hlen
    | cons d ds =>
      cases i with
      | zero => simp [sample_negatives2_cons]
      | succ m =>
        rw [sample_negatives2_cons]
        have e1 : 2 * (m + 1) = 2 * m + 1 + 1 := by ring
        rw [e1]
        simp only [List.getElem?_cons_succ, List.getD_cons_succ]
        exact ih ds m (by simpa using hlen) (by simpa using hi)

/-- Claim C4: `sample_negatives2(X, n)` returns exactly two output rows per
input row (in order); the first differs from its source row exactly in the
subject slot, the second exactly in the object slot, the corrupted value is
never equal to the value it replaces, and every corrupted value lies in
`[0, n)`. -/
theorem sample_negatives2_two_rows_per_input (X : List Row) (draws : List (Nat × Nat))
    (n : Nat) (hlen : draws.length = X.length)
    (hrows : ∀ x ∈ X, x.length = 3)
    (hdraws : ∀ i, i < X.length →
      (draws.getD i (0, 0)).1 < n ∧ (draws.getD i (0, 0)).1 ≠ (X.getD i []).getD 0 0 ∧
      (draws.getD i (0, 0)).2 < n ∧ (draws.getD i (0, 0)).2 ≠ (X.getD i []).getD 2 0) :
    (sample_negatives2 X draws).length = 2 * X.length ∧
    ∀ i, i < X.length → ∃ y0 y1,
      (sample_negatives2 X draws)[2 * i]? = some y0 ∧
      (sample_negatives2 X draws)[2 * i + 1]? = some y1 ∧
      y0.length = (X.getD i []).length ∧ y1.length = (X.getD i []).length ∧
      y0[1]? = (X.getD i [])[1]? ∧ y0[2]? = (X.getD i [])[2]? ∧
      y0[0]? ≠ (X.getD i [])[0]? ∧ (∀ v, y0[0]? = some v → v < n) ∧
      y1[0]? = (X.getD i [])[0]? ∧ y1[1]? = (X.getD i [])[1]? ∧
      y1[2]? ≠ (X.getD i [])[2]? ∧ (∀ v, y1[2]? = some v → v < n) := by
  refine ⟨sample_negatives2_length X draws hlen, ?_⟩
  intro i hi
  obtain ⟨hg0, hg1⟩ := sample_negatives2_getElem X draws i hlen hi
  obtain ⟨hd1, hd1ne, hd2, hd2ne⟩ := hdraws i hi
  have hx3 : (X.getD i []).length = 3 := hrows _ (getD_mem_of_lt X i [] hi)
  have e0 : (X.getD i [])[0]? = some ((X.getD i []).getD 0 0) := by
    rw [List.getD_eq_getElem (X.getD i []) 0 (by omega)]
    exact List.getElem?_eq_getElem (by omega)
  have e1 : (X.getD i [])[1]? = some ((X.getD i []).getD 1 0) := by
    rw [List.getD_eq_getElem (X.getD i []) 0 (by omega)]
    exact List.getElem?_eq_getElem (by omega)
  have e2 : (X.getD i [])[2]? = some ((X.getD i []).getD 2 0) := by
    rw [List.getD_eq_getElem (X.getD i []) 0 (by omega)]
    exact List.getElem?_eq_getElem (by omega)
  refine ⟨_, _, hg0, hg1, by rw [hx3]; rfl, by rw [hx3]; rfl, by rw [e1]; rfl, by rw [e2]; rfl,
    ?_, ?_, by rw [e0]; rfl, by rw [e1]; rfl, ?_, ?_⟩
  · rw [e0]
    simpa using hd1ne
  · intro v hv
    obtain rfl : (draws.getD i (0, 0)).1 = v := by simpa using hv
    exact hd1
  · rw [e2]
    simpa using hd2ne
  · intro v hv
    obtain rfl : (draws.getD i (0, 0)).2 = v := by simpa using hv
    exact hd2

/-- Witness for Claim C4: one source row, vocabulary size 4, draws (2, 3). -/
theorem sample_negatives2_two_rows_per_input_witness :
    (sample_negatives2 [[0, 1, 1]] [(2, 3)]).length = 2 * 1 ∧
      (∀ x ∈ ([[0, 1, 1]] : List Row), x.length = 3) :=
  ⟨(sample_negatives2_two_rows_per_input [[0, 1, 1]] [(2, 3)] 4 rfl (by decide)
      (by decide)).1, by decide⟩

/-- Claim C10: whenever the without-replacement draw of `mb_size` row indices
succeeds, `get_random_minibatch(X, mb_size)` returns exactly `mb_size` rows
of `X` taken at pairwise-distinct row positions; when `mb_size > len(X)` no
without-replacement draw exists, so the call fails rather than returning a
batch. -/
theorem get_random_minibatch_draws_distinct_rows (X : List Row) (mb : Nat)
    (idxs : List Nat) :
    (validDraw X.length mb idxs →
      (get_random_minibatch X idxs).length = mb ∧
      idxs.Nodup ∧
      (∀ j, j < mb → ∃ i, idxs[j]? = some i ∧ i < X.length ∧
        (get_random_minibatch X idxs)[j]? = X[i]?)) ∧
    (X.length < mb → ¬ ∃ l, validDraw X.length mb l) := by
  constructor
  · rintro ⟨hlen, hnd, hbound⟩
    refine ⟨by simp [get_random_minibatch, hlen], hnd, ?_⟩
    intro j hj
    have hj2 : j < idxs.length := by omega
    have hib : idxs[j] < X.length := hbound _ (List.getElem_mem hj2)
    refine ⟨idxs[j], List.getElem?_eq_getElem hj2, hib, ?_⟩
    rw [get_random_minibatch, List.getElem?_map, List.getElem?_eq_getElem hj2]
    simp [List.getD_eq_getElem X [] hib, List.getElem?_eq_getElem hib]
  · exact fun h => validDraw_not_exists _ _ h

/-- Witness for Claim C10: three rows, a draw of two distinct indices. -/
theorem get_random_minibatch_draws_distinct_rows_witness :
    validDraw 3 2 [2, 0] ∧
      (get_random_minibatch [[0, 0, 1], [1, 0, 2], [2, 0, 0]] [2, 0]).length = 2 := by
  have hv : validDraw ([[0, 0, 1], [1, 0, 2], [2, 0, 0]] : List Row).length 2 [2, 0] :=
    ⟨rfl, by decide, by decide⟩
  exact ⟨hv, ((get_random_minibatch_draws_distinct_rows
    [[0, 0, 1], [1, 0, 2], [2, 0, 0]] 2 [2, 0]).1 hv).1⟩

theorem readArray_append (s : Store) (m : List Row) (p : Nat) (h : p < s.length) :
    readArray (s ++ [m]) p = readArray s p := by
  simp [readArray, List.getD_eq_getElem?_getD, List.getElem?_append, h]

theorem readArray_write_ne (s : Store) (q p : Nat) (m : List Row) (h : q ≠ p) :
    readArray (writeArray s q m) p = readArray s p := by
  simp [readArray, writeArray, List.getD_eq_getElem?_getD, List.getElem?_set_ne h]

/-- Claim C8: none of the four negative samplers mutates its input batch, and
each returns a freshly allocated array: running any of them on a store leaves
the array the input pointer refers to unchanged, and the returned pointer is
distinct from the input pointer. -/
theorem samplers_do_not_mutate_input (s : Store) (pX : Nat)
    (corr e_idxs idxs cs co rdraws : List Nat) (draws : List (Nat × Nat))
    (h : pX < s.length) :
    (readArray (sample_negatives_prog s pX corr e_idxs).1 pX = readArray s pX ∧
      (sample_negatives_prog s pX corr e_idxs).2 ≠ pX) ∧
    (readArray (sample_negatives2_prog s pX draws).1 pX = readArray s pX ∧
      (sample_negatives2_prog s pX draws).2 ≠ pX) ∧
    (readArray (sample_negatives_decoupled_prog s pX idxs cs co).1 pX = readArray s pX ∧
      (sample_negatives_decoupled_prog s pX idxs cs co).2 ≠ pX) ∧
    (readArray (sample_negatives_rel_prog s pX rdraws).1 pX = readArray s pX ∧
      (sample_negatives_rel_prog s pX rdraws).2 ≠ pX) := by
  have hne : s.length ≠ pX := by omega
  refine ⟨⟨?_, ?_⟩, ⟨?_, ?_⟩, ⟨?_, ?_⟩, ⟨?_, ?_⟩⟩
  · simp only [sample_negatives_prog, allocArray]
    rw [readArray_write_ne _ _ _ _ hne, readArray_append s _ pX h]
  · simpa [sample_negatives_prog, allocArray] using hne
  · simp only [sample_negatives2_prog, allocArray]
    exact readArray_append s _ pX h
  · simpa [sample_negatives2_prog, allocArray] using hne
  · simp only [sample_negatives_decoupled_prog, allocArray]
    rw [readArray_write_ne _ _ _ _ hne, readArray_append s _ pX h]
  · simpa [sample_negatives_decoupled_prog, allocArray] using hne
  · simp only [sample_negatives_rel_prog, allocArray]
    exact readArray_append s _ pX h
  · simpa [sample_negatives_rel_prog, allocArray] using hne

/-- Witness for Claim C8: a one-matrix store. -/
theorem samplers_do_not_mutate_input_witness :
    (0 : Nat) < 1 ∧
      readArray (sample_negatives_prog [[[0, 0, 1]]] 0 [1] [0]).1 0 =
        readArray [[[0, 0, 1]]] 0 :=
  ⟨by decide,
    (samplers_do_not_mutate_input [[[0, 0, 1]]] 0 [1] [0] [0] [1] [1] [0] [(1, 0)]
      (by decide)).1.1⟩

/-- Claim C1, counterexample: with the spec's score convention (the true
triplet scores strictly HIGHER than every corrupted candidate: slot-zero
scores are `[1, 0]` in both directions), `eval_embeddings` returns
`(mrr, hitsk) = (1/2, 0)`, not `(1, 1)`: `scipy.stats.rankdata` ranks
ascending, so the highest score gets the largest rank, not rank 1. -/
theorem eval_embeddings_highest_score_counterexample :
    scoresRowH (fun r => if r = [0, 0, 1] then (1 : ℚ) else 0) [0, 0, 1] [2] = [1, 0] ∧
    scoresRowT (fun r => if r = [0, 0, 1] then (1 : ℚ) else 0) [0, 0, 1] [2] = [1, 0] ∧
    eval_embeddings (fun r => if r = [0, 0, 1] then (1 : ℚ) else 0) [[0, 0, 1]] [2] 1 =
      (1 / 2, 0) ∧
    ¬ eval_embeddings (fun r => if r = [0, 0, 1] then (1 : ℚ) else 0) [[0, 0, 1]] [2] 1 =
      (1, 1) := by
  have hsH : scoresRowH (fun r => if r = [0, 0, 1] then (1 : ℚ) else 0) [0, 0, 1] [2] =
      [1, 0] := by
    simp [scoresRowH, corruptH]
  have hsT : scoresRowT (fun r => if r = [0, 0, 1] then (1 : ℚ) else 0) [0, 0, 1] [2] =
      [1, 0] := by
    simp [scoresRowT, corruptT]
  have hrank : rankdataAt [(1 : ℚ), 0] 0 = 2 := by
    have h := rankdataAt_cons_of_forall_gt 1 [0] (by
      intro a ha
      rw [List.mem_singleton] at ha
      subst ha
      norm_num)
    rw [h]
    norm_num
  have hrH : ranksH (fun r => if r = [0, 0, 1] then (1 : ℚ) else 0) [[0, 0, 1]] [2] =
      [2] := by
    simp only [ranksH, List.map_cons, List.map_nil]
    rw [hsH, hrank]
  have hrT : ranksT (fun r => if r = [0, 0, 1] then (1 : ℚ) else 0) [[0, 0, 1]] [2] =
      [2] := by
    simp only [ranksT, List.map_cons, List.map_nil]
    rw [hsT, hrank]
  have heval : eval_embeddings (fun r => if r = [0, 0, 1] then (1 : ℚ) else 0)
      [[0, 0, 1]] [2] 1 = (1 / 2, 0) := by
    simp only [eval_embeddings]
    rw [hrH, hrT]
    norm_num [npMean, Prod.ext_iff]
  refine ⟨hsH, hsT, heval, ?_⟩
  rw [heval]
  intro hcontra
  rw [Prod.ext_iff] at hcontra
  norm_num at hcontra

/-- Claim C1 (amended): for every nonempty test set and every scoring
capability that assigns the true triplet a strictly LOWER score than every
corrupted candidate in both directions, every row's rank is 1 (hence the mean
rank is 1) and `eval_embeddings` yields MRR = 1 and Hits@k = 1 for every
k ≥ 1. -/
theorem eval_embeddings_perfect_when_true_scores_lowest (score : Row → ℚ) (X : List Row)
    (ents : List Nat) (k : Nat) (hX : X ≠ []) (hk : 1 ≤ k)
    (hs : ∀ x ∈ X, ∀ e ∈ ents,
      score x < score (corruptH x e) ∧ score x < score (corruptT x e)) :
    ranksH score X ents = X.map (fun _ => 1) ∧
    ranksT score X ents = X.map (fun _ => 1) ∧
    npMean (ranksH score X ents) = 1 ∧
    npMean (ranksT score X ents) = 1 ∧
    eval_embeddings score X ents k = (1, 1) := by
  have hH : ranksH score X ents = X.map (fun _ => 1) := by
    rw [ranksH]
    apply List.map_congr_left
    intro x hx
    rw [scoresRowH]
    apply rankdataAt_cons_of_forall_lt
    intro a ha
    rw [List.mem_map] at ha
    obtain ⟨e, he, rfl⟩ := ha
    exact (hs x hx e he).1
  have hT : ranksT score X ents = X.map (fun _ => 1) := by
    rw [ranksT]
    apply List.map_congr_left
    intro x hx
    rw [scoresRowT]
    apply rankdataAt_cons_of_forall_lt
    intro a ha
    rw [List.mem_map] at ha
    obtain ⟨e, he, rfl⟩ := ha
    exact (hs x hx e he).2
  have h1k : (1 : ℚ) ≤ (k : ℚ) := by exact_mod_cast hk
  have hone : (X.map (fun _ => (1 : ℚ))).map (fun r => 1 / r) =
      X.map (fun _ => (1 : ℚ)) := by
    rw [List.map_map]
    apply List.map_congr_left
    intro a _
    norm_num
  have hind : (X.map (fun _ => (1 : ℚ))).map (fun r => if r ≤ (k : ℚ) then (1 : ℚ) else 0) =
      X.map (fun _ => (1 : ℚ)) := by
    rw [List.map_map]
    apply List.map_congr_left
    intro a _
    simp [h1k]
  refine ⟨hH, hT, ?_, ?_, ?_⟩
  · rw [hH]
    exact npMean_map_const X 1 hX
  · rw [hT]
    exact npMean_map_const X 1 hX
  · simp only [eval_embeddings]
    rw [hH, hT, hone, hind, npMean_map_const X 1 hX]
    norm_num

/-- Witness for Claim C1 (amended): one test triplet, one pool entity,
the true triplet scored strictly below both corruptions. -/
theorem eval_embeddings_perfect_when_true_scores_lowest_witness :
    (∀ x ∈ ([[0, 0, 1]] : List Row), ∀ e ∈ ([2] : List Nat),
      (fun r => if r = [0, 0, 1] then (0 : ℚ) else 1) x <
        (fun r => if r = [0, 0, 1] then (0 : ℚ) else 1) (corruptH x e) ∧
      (fun r => if r = [0, 0, 1] then (0 : ℚ) else 1) x <
        (fun r => if r = [0, 0, 1] then (0 : ℚ) else 1) (corruptT x e)) ∧
    eval_embeddings (fun r => if r = [0, 0, 1] then (0 : ℚ) else 1) [[0, 0, 1]] [2] 1 =
      (1, 1) := by
  have hs : ∀ x ∈ ([[0, 0, 1]] : List Row), ∀ e ∈ ([2] : List Nat),
      (fun r => if r = [0, 0, 1] then (0 : ℚ) else 1) x <
        (fun r => if r = [0, 0, 1] then (0 : ℚ) else 1) (corruptH x e) ∧
      (fun r => if r = [0, 0, 1] then (0 : ℚ) else 1) x <
        (fun r => if r = [0, 0, 1] then (0 : ℚ) else 1) (corruptT x e) := by
    intro x hx e he
    rw [List.mem_singleton] at hx he
    subst hx
    subst he
    constructor <;> norm_num [corruptH, corruptT]
  exact ⟨hs, (eval_embeddings_perfect_when_true_scores_lowest
    (fun r => if r = [0, 0, 1] then (0 : ℚ) else 1) [[0, 0, 1]] [2] 1
    (by decide) (by decide) hs).2.2.2.2⟩

/-- Claim C2, counterexample: with two columns of identical scores the rank of
every row is `3/2`, not 1 (`scipy.stats.rankdata` uses the AVERAGE tie method,
not the minimum), and `eval_embeddings` returns `(2/3, 0)`, not `(1, 1)`. -/
theorem eval_embeddings_tie_min_rank_counterexample :
    ranksH (fun _ => (0 : ℚ)) [[0, 0, 1]] [2] = [3 / 2] ∧
    eval_embeddings (fun _ => (0 : ℚ)) [[0, 0, 1]] [2] 1 = (2 / 3, 0) ∧
    ¬ (ranksH (fun _ => (0 : ℚ)) [[0, 0, 1]] [2] = [1] ∧
       eval_embeddings (fun _ => (0 : ℚ)) [[0, 0, 1]] [2] 1 = (1, 1)) := by
  have hrank : rankdataAt [(0 : ℚ), 0] 0 = 3 / 2 := by
    have := rankdataAt_cons_of_forall_eq 0 [0] (by
      intro a ha
      rwa [List.mem_singleton] at ha)
    rw [this]
    norm_num
  have hrH : ranksH (fun _ => (0 : ℚ)) [[0, 0, 1]] [2] = [3 / 2] := by
    simp only [ranksH, List.map_cons, List.map_nil, scoresRowH]
    rw [hrank]
  have hrT : ranksT (fun _ => (0 : ℚ)) [[0, 0, 1]] [2] = [3 / 2] := by
    simp only [ranksT, List.map_cons, List.map_nil, scoresRowT]
    rw [hrank]
  have heval : eval_embeddings (fun _ => (0 : ℚ)) [[0, 0, 1]] [2] 1 = (2 / 3, 0) := by
    simp only [eval_embeddings]
    rw [hrH, hrT]
    norm_num [npMean, Prod.ext_iff]
  refine ⟨hrH, heval, ?_⟩
  rintro ⟨hc, -⟩
  rw [hrH] at hc
  norm_num at hc

/-- Claim C2 (amended): the rank statistic assigns the AVERAGE rank among
ties; if every candidate (including the true triplet) receives the same
score, every row of a nonempty test set gets rank `(N + 1) / 2` where
`N = |ents| + 1` is the column count, so MRR = `2 / (N + 1)` and Hits@k is 1
exactly when `(N + 1) / 2 ≤ k`. -/
theorem eval_embeddings_all_tied_average_rank (score : Row → ℚ) (X : List Row)
    (ents : List Nat) (k : Nat) (c : ℚ) (hX : X ≠ []) (hs : ∀ r, score r = c) :
    ranksH score X ents = X.map (fun _ => ((ents.length : ℚ) + 2) / 2) ∧
    ranksT score X ents = X.map (fun _ => ((ents.length : ℚ) + 2) / 2) ∧
    eval_embeddings score X ents k =
      (2 / ((ents.length : ℚ) + 2),
       if ((ents.length : ℚ) + 2) / 2 ≤ (k : ℚ) then 1 else 0) := by
  have hH : ranksH score X ents = X.map (fun _ => ((ents.length : ℚ) + 2) / 2) := by
    rw [ranksH]
    apply List.map_congr_left
    intro x hx
    rw [scoresRowH, hs x]
    have hall : ∀ a ∈ ents.map (fun e => score (corruptH x e)), a = c := by
      intro a ha
      rw [List.mem_map] at ha
      obtain ⟨e, _, rfl⟩ := ha
      exact hs _
    have := rankdataAt_cons_of_forall_eq c _ hall
    rw [this, List.length_map]
  have hT : ranksT score X ents = X.map (fun _ => ((ents.length : ℚ) + 2) / 2) := by
    rw [ranksT]
    apply List.map_congr_left
    intro x hx
    rw [scoresRowT, hs x]
    have hall : ∀ a ∈ ents.map (fun e => score (corruptT x e)), a = c := by
      intro a ha
      rw [List.mem_map] at ha
      obtain ⟨e, _, rfl⟩ := ha
      exact hs _
    have := rankdataAt_cons_of_forall_eq c _ hall
    rw [this, List.length_map]
  have hone : (X.map (fun _ => ((ents.length : ℚ) + 2) / 2)).map (fun r => 1 / r) =
      X.map (fun _ => 2 / ((ents.length : ℚ) + 2)) := by
    rw [List.map_map]
    apply List.map_congr_left
    intro a _
    simp only [Function.comp_apply]
    exact one_div_div ((ents.length : ℚ) + 2) 2
  have hind : (X.map (fun _ => ((ents.length : ℚ) + 2) / 2)).map
        (fun r => if r ≤ (k : ℚ) then (1 : ℚ) else 0) =
      X.map (fun _ => if ((ents.length : ℚ) + 2) / 2 ≤ (k : ℚ) then (1 : ℚ) else 0) := by
    rw [List.map_map]
    apply List.map_congr_left
    intro a _
    rfl
  refine ⟨hH, hT, ?_⟩
  simp only [eval_embeddings]
  rw [hH, hT, hone, hind, npMean_map_const X _ hX, npMean_map_const X _ hX,
    Prod.mk.injEq]
  exact ⟨by ring, by ring⟩

/-- Witness for Claim C2 (amended): constant score 5, two pool entities,
k = 2; every rank is 2 and the metrics come out `(1/2, 1)`. -/
theorem eval_embeddings_all_tied_average_rank_witness :
    (∀ r : Row, (fun _ => (5 : ℚ)) r = 5) ∧
    eval_embeddings (fun _ => (5 : ℚ)) [[0, 0, 1]] [2, 3] 2 = (1 / 2, 1) := by
  have h := (eval_embeddings_all_tied_average_rank (fun _ => (5 : ℚ)) [[0, 0, 1]]
    [2, 3] 2 5 (by decide) (fun r => rfl)).2.2
  refine ⟨fun r => rfl, ?_⟩
  rw [h]
  norm_num

/-- Claim C3, counterexample: with one entity and `n_sample = 2` the
evaluator does not fall back to exhaustive enumeration; the without-
replacement draw `np.random.choice(np.arange(1), size=2, replace=False)` has
no possible outcome, so the call fails. -/
theorem eval_embeddings_oversample_fails_counterexample :
    numCols 1 (some 2) = 3 ∧ ¬ ∃ l, validDraw 1 2 l :=
  ⟨rfl, validDraw_not_exists 1 2 (by omega)⟩

/-- Claim C3 (amended): only `n_sample = None` takes the exhaustive branch,
with candidate pool `np.arange(n_e)` of size `n_e` (score matrix width
`n_e + 1`); for `n_sample = n_e` the without-replacement draw succeeds and
necessarily returns every entity (an exhaustive pool in random order); for
`n_sample > n_e` no without-replacement draw exists and the call fails. -/
theorem ents_pool_exhaustive_only_for_none (n_e s : Nat) (draw ents : List Nat) :
    (entsPool n_e none draw = List.range n_e ∧ (entsPool n_e none draw).length = n_e ∧
      numCols n_e none = n_e + 1) ∧
    (validDraw n_e n_e ents → (∀ e, e < n_e → e ∈ ents) ∧ ents.length = n_e) ∧
    (s ≤ n_e → ∃ l, validDraw n_e s l) ∧
    (n_e < s → ¬ ∃ l, validDraw n_e s l) := by
  refine ⟨⟨rfl, by simp [entsPool], rfl⟩, ?_, validDraw_exists n_e s, validDraw_not_exists n_e s⟩
  intro h
  exact ⟨validDraw_full_mem n_e ents h, h.1⟩

/-- Witness for Claim C3 (amended): vocabulary of two entities; the draw
`[1, 0]` of size 2 covers the vocabulary, and the `None` pool is `range 2`. -/
theorem ents_pool_exhaustive_only_for_none_witness :
    validDraw 2 2 [1, 0] ∧ (0 ∈ ([1, 0] : List Nat) ∧ 1 ∈ ([1, 0] : List Nat)) ∧
    entsPool 2 none [] = List.range 2 := by
  have hv : validDraw 2 2 [1, 0] := ⟨rfl, by decide, by decide⟩
  have h := ents_pool_exhaustive_only_for_none 2 3 [] [1, 0]
  exact ⟨hv, ⟨(h.2.1 hv).1 0 (by omega), (h.2.1 hv).1 1 (by omega)⟩, h.1.1⟩

/-- Claim C9: in `eval_embeddings_rel` the precomputed slot-zero score is
overwritten by the candidate loop: after the loop, column `j < 5` of a row's
score vector holds the model score of the relation-`j` corruption (so column
0 holds the candidate score written by the loop); every column with index in
`[5, n_r)` keeps its zero initialisation; the row keeps all `n_r` columns, so
those zeros participate in the rank statistic; and the row's rank is read at
the column indexed by the row's true relation. -/
theorem eval_embeddings_rel_score_matrix (score : Row → ℚ) (n_r : Nat) (x : Row)
    (h : 5 < n_r) :
    (∀ j, j < 5 → (scoresRowRel score n_r x)[j]? = some (score (corruptR x j))) ∧
    (∀ j, 5 ≤ j → j < n_r → (scoresRowRel score n_r x)[j]? = some 0) ∧
    (scoresRowRel score n_r x).length = n_r ∧
    ranksRel score n_r [x] = [rankdataAt (scoresRowRel score n_r x) (x.getD 1 0)] := by
  have hunf : scoresRowRel score n_r x =
      ((((((List.replicate n_r (0 : ℚ)).set 0 (score x)).set 0
        (score (corruptR x 0))).set 1 (score (corruptR x 1))).set 2
        (score (corruptR x 2))).set 3 (score (corruptR x 3))).set 4
        (score (corruptR x 4)) := by
    rw [scoresRowRel]
    rfl
  have hlen : (scoresRowRel score n_r x).length = n_r := by
    rw [hunf]
    simp
  refine ⟨?_, ?_, hlen, by simp [ranksRel]⟩
  · intro j hj
    have h0 : 0 < n_r := by omega
    have h1 : 1 < n_r := by omega
    have h2 : 2 < n_r := by omega
    have h3 : 3 < n_r := by omega
    have h4 : 4 < n_r := by omega
    rw [hunf]
    interval_cases j <;>
      simp [List.getElem?_set, List.length_set, List.length_replicate, h0, h1, h2, h3, h4]
  · intro j h5j hjn
    rw [hunf, List.getElem?_set_ne (by omega), List.getElem?_set_ne (by omega),
      List.getElem?_set_ne (by omega), List.getElem?_set_ne (by omega),
      List.getElem?_set_ne (by omega), List.getElem?_set_ne (by omega),
      List.getElem?_replicate, if_pos hjn]

/-- Witness for Claim C9: eight relations, test row `[3, 6, 4]`; the true
relation is 6, whose score column keeps its zero initialisation. -/
theorem eval_embeddings_rel_score_matrix_witness :
    5 < 8 ∧
      (scoresRowRel (fun r => ((r.getD 1 0 : Nat) : ℚ) + 100) 8 [3, 6, 4])[6]? = some 0 ∧
      (scoresRowRel (fun r => ((r.getD 1 0 : Nat) : ℚ) + 100) 8 [3, 6, 4])[0]? =
        some ((fun r => ((r.getD 1 0 : Nat) : ℚ) + 100) (corruptR [3, 6, 4] 0)) := by
  have h := eval_embeddings_rel_score_matrix
    (fun r => ((r.getD 1 0 : Nat) : ℚ) + 100) 8 [3, 6, 4] (by omega)
  exact ⟨by omega, h.2.1 6 (by omega) (by omega), h.1 0 (by omega)⟩

/-- Claim C5 (code bug): at `y_pred = [0]`, `y_true = [1]`,
`emb_E = [[3], [3]]`, `emb_R = [[0]]`, `lam = 1`, `average = True`, the loss
returned by `log_loss` exceeds the loss the specification describes (binary
cross-entropy plus `lam * mean(relu(||row||_2 - 1))` per table) by exactly 2:
the code divides each summed penalty by `nlp.size(0) = 1` instead of the
number of rows of the table, so it adds `lam * sum`, not `lam * mean`. -/
theorem log_loss_adds_sum_penalty_not_mean :
    log_loss [0] [1] [[3], [3]] [[0]] 1 true =
      log_loss_specified [0] [1] [[3], [3]] [[0]] 1 true + 2 ∧
    log_loss [0] [1] [[3], [3]] [[0]] 1 true ≠
      log_loss_specified [0] [1] [[3], [3]] [[0]] 1 true := by
  have hnorm3 : rowNorm [(3 : ℝ)] = 3 := by
    rw [rowNorm]
    simp only [List.map_cons, List.map_nil, List.sum_cons, List.sum_nil, add_zero]
    exact Real.sqrt_sq (by norm_num)
  have hnorm0 : rowNorm [(0 : ℝ)] = 0 := by
    rw [rowNorm]
    simp
  have hE : normPenaltySum [[(3 : ℝ)], [3]] = 4 := by
    rw [normPenaltySum]
    simp [hnorm3]
    norm_num
  have hR : normPenaltySum [[(0 : ℝ)]] = 0 := by
    rw [normPenaltySum]
    simp [hnorm0]
  have hmain : log_loss [0] [1] [[3], [3]] [[0]] 1 true =
      log_loss_specified [0] [1] [[3], [3]] [[0]] 1 true + 2 := by
    simp only [log_loss, log_loss_specified, if_pos]
    rw [hE, hR]
    norm_num
    ring
  refine ⟨hmain, ?_⟩
  rw [hmain]
  intro hcontra
  have : (2 : ℝ) = 0 := by linarith
  norm_num at this

end KGA
